import Mathlib

/-
Verification of the smart basketball hoop controller (src/lab-2025/src/main.rs).
The embedding models: the ultrasonic ranging drivers (HcSr04Sensor and
IoeSr05Sensor read_distance), the shot state machine of game_logic_task,
the shared game state (SCORE, CURRENT_RESULT), and the RgbLeds collaborator.
Cooperative-scheduler timing is modelled by explicit elapsed times and
explicit sleep actions; the f32 arithmetic of the distance conversion is
modelled exactly over scaled integers with IEEE-754 round-to-nearest-even.
-/

namespace Hoop

/-- Bit length of a natural number, computed with explicit fuel so that it
reduces by structural recursion. For n < 2 ^ fuel, bitsAux fuel n is the
number of binary digits of n. -/
def bitsAux : Nat → Nat → Nat
  | 0, _ => 0
  | fuel + 1, n => if n = 0 then 0 else bitsAux fuel (n / 2) + 1

/-- Bit length of a natural number below 2 ^ 128 (enough for every value the
driver model produces: a u64 pulse width times the 24-bit constant). -/
def bits (n : Nat) : Nat := bitsAux 128 n

/-- Numerator of the IEEE-754 binary32 value nearest to the source constant
0.01715: that value is exactly C_F32_NUM / 2 ^ 29. -/
def C_F32_NUM : Nat := 9207336

/-- Round a natural number to 24 significant bits, ties to even. This is the
rounding IEEE-754 binary32 applies to an exact nonnegative integer, and, after
scaling by 2 ^ 29, to the exact product computed in read_distance (all values
involved lie in the normal range of binary32, so no subnormal or overflow case
arises). -/
def roundSig24 (n : Nat) : Nat :=
  if n < 2 ^ 24 then n
  else if 2 ^ (bits n - 25) < n % 2 ^ (bits n - 24)
      || (n % 2 ^ (bits n - 24) == 2 ^ (bits n - 25)
          && (n / 2 ^ (bits n - 24)) % 2 == 1)
  then (n / 2 ^ (bits n - 24) + 1) * 2 ^ (bits n - 24)
  else n / 2 ^ (bits n - 24) * 2 ^ (bits n - 24)

/-- Model of the distance conversion in read_distance (main.rs lines 276-279
and 326-329): let distance_cm = (echo_duration as f32 * 0.01715) as u16;
Ok(distance_cm.min(400)). Casting the u64 echo_duration w to f32 rounds it to
24 significant bits; the f32 multiplication rounds the exact product
(roundSig24 w * C_F32_NUM) / 2 ^ 29 once more to 24 significant bits; the cast
as u16 truncates toward zero and saturates at 65535; .min(400) clamps. -/
def distance_cm (w : Nat) : Nat :=
  min (min (roundSig24 (roundSig24 w * C_F32_NUM) / 2 ^ 29) 65535) 400

/-- ShotResult, main.rs lines 34-39: Miss (red), Good (blue), Perfect (green).
Miss is also the idle state of CURRENT_RESULT. -/
inductive ShotResult
  | Miss
  | Good
  | Perfect
deriving DecidableEq

/-- One iteration of the ring-polling loop of game_logic_task (main.rs lines
123-155): the elapsed milliseconds since shot_start observed at this
iteration, and the three ring read_distance results, where none models
Err(Timeout). -/
structure Tick where
  t : Nat
  ring1 : Option Nat
  ring2 : Option Nat
  ring3 : Option Nat

/-- Lines 125-127: ringN.read_distance().await.unwrap_or(400). -/
def ringDist (r : Option Nat) : Nat := r.getD 400

/-- Line 130: ring1_dist < 60 || ring2_dist < 60 || ring3_dist < 60. -/
def tickDetects (tk : Tick) : Bool :=
  decide (ringDist tk.ring1 < 60) || decide (ringDist tk.ring2 < 60) ||
    decide (ringDist tk.ring3 < 60)

/-- The inner shot window of game_logic_task (lines 119-161): while elapsed <
3 s and no detection, poll the rings; on the first qualifying tick classify
(elapsed < 2 s gives Perfect, otherwise Good), increment the score by one and
break; if the window expires undetected the result is Miss with no increment.
Returns the classified result together with the score increment. -/
def runWindow : List Tick → ShotResult × Nat
  | [] => (ShotResult.Miss, 0)
  | tk :: rest =>
    if tk.t < 3000 then
      if tickDetects tk then
        if tk.t < 2000 then (ShotResult.Perfect, 1) else (ShotResult.Good, 1)
      else runWindow rest
    else (ShotResult.Miss, 0)

/-- Elapsed time of the first qualifying ring reading inside the 3 s window,
none when the window expires with no qualifying reading. -/
def firstDetection : List Tick → Option Nat
  | [] => none
  | tk :: rest =>
    if tk.t < 3000 then
      if tickDetects tk then some tk.t else firstDetection rest
    else none

/-- Observable actions of the tasks on the shared state: writing
CURRENT_RESULT (set_global_result, lines 180-183), suspending on a timer, and
incrementing SCORE (line 147). -/
inductive Action
  | setResult (r : ShotResult)
  | sleepMs (ms : Nat)
  | addScore
deriving DecidableEq

/-- Action trace of the ring-polling window (lines 123-155): each undetected
in-window tick ends in Timer::after(50 ms); the first qualifying tick
increments SCORE and breaks. -/
def windowActs : List Tick → List Action
  | [] => []
  | tk :: rest =>
    if tk.t < 3000 then
      if tickDetects tk then [Action.addScore]
      else Action.sleepMs 50 :: windowActs rest
    else []

/-- Action trace of one iteration of the outer loop of game_logic_task (lines
113-174): if the approach sensor read succeeds with distance < 50 the shot
window runs, then the result is published, held 2 s, reset to Miss, and 1 s of
cooldown passes; in every case the iteration ends with Timer::after(100 ms). -/
def loopIter (approach : Option Nat) (ticks : List Tick) : List Action :=
  (match approach with
   | some d =>
     if d < 50 then
       windowActs ticks ++
         [Action.setResult (runWindow ticks).fst, Action.sleepMs 2000,
          Action.setResult ShotResult.Miss, Action.sleepMs 1000]
     else []
   | none => []) ++ [Action.sleepMs 100]

/-- Shared game state: SCORE (line 25) and CURRENT_RESULT (line 178). -/
structure GameState where
  score : Nat
  current : ShotResult
deriving DecidableEq

/-- Effect of one action on the shared state; sleeping changes nothing. -/
def applyAction (st : GameState) : Action → GameState
  | Action.setResult r => { st with current := r }
  | Action.sleepMs _ => st
  | Action.addScore => { st with score := st.score + 1 }

def runActions (st : GameState) (acts : List Action) : GameState :=
  acts.foldl applyAction st

/-- Sequential execution of successive outer-loop iterations of
game_logic_task: each iteration is given the approach read result and the ring
tick inputs of its window, and runs to completion before the next begins. -/
def gameRun (st : GameState) : List (Option Nat × List Tick) → GameState
  | [] => st
  | (a, tks) :: rest => gameRun (runActions st (loopIter a tks)) rest

/-- A ShotResult that scores: Good or Perfect. -/
def isHit : ShotResult → Bool
  | ShotResult.Miss => false
  | ShotResult.Good => true
  | ShotResult.Perfect => true

/-- The echo-level polling loops of HcSr04Sensor::read_distance (lines 259-264
and 269-274): starting at instant t (microseconds), sample the echo line once
per microsecond; return the instant at which it first shows the target level.
The fuel counts the samples left: the source checks elapsed > 30000 us after a
failed sample, so with fuel 30001 the last sample happens at t + 30001 and a
timeout returns none exactly as the source returns Err(()). -/
def hcWaitLevel (target : Bool) (echo : Nat → Bool) : Nat → Nat → Option Nat
  | t, 0 => if echo t = target then some t else none
  | t, fuel + 1 =>
    if echo t = target then some t else hcWaitLevel target echo (t + 1) fuel

/-- HcSr04Sensor::read_distance (lines 246-280): after the trigger pulse, wait
for the echo line to go high (30 ms timeout), record echo_start, wait for it
to go low (30 ms timeout from echo_start), and convert the pulse width to
centimeters. echo is the echo-line level as a function of the microsecond
instant; t0 is the instant polling starts after the trigger pulse. -/
def hcsr04_read_distance (echo : Nat → Bool) (t0 : Nat) : Option Nat :=
  match hcWaitLevel true echo t0 30001 with
  | none => none
  | some th =>
    match hcWaitLevel false echo th 30001 with
    | none => none
    | some tl => some (distance_cm (tl - th))

/-- The same polling loop as hcWaitLevel, written separately because
IoeSr05Sensor::read_distance (lines 307-324) repeats the code. -/
def ioeWaitLevel (target : Bool) (echo : Nat → Bool) : Nat → Nat → Option Nat
  | t, 0 => if echo t = target then some t else none
  | t, fuel + 1 =>
    if echo t = target then some t else ioeWaitLevel target echo (t + 1) fuel

/-- IoeSr05Sensor::read_distance (lines 294-330): same protocol as the
HC-SR04 driver; sensor_id feeds only the warn! diagnostics and does not
influence the result. -/
def ioesr05_read_distance (sensor_id : Nat) (echo : Nat → Bool) (t0 : Nat) :
    Option Nat :=
  match ioeWaitLevel true echo t0 30001 with
  | none => none
  | some th =>
    match ioeWaitLevel false echo th 30001 with
    | none => none
    | some tl => some (distance_cm (tl - th))

/-- Levels driven on the three RGB pins (RgbLeds, lines 370-407): true models
set_high. -/
structure RgbPins where
  red_pin : Bool
  green_pin : Bool
  blue_pin : Bool
deriving DecidableEq

/-- RgbLeds::set_color (lines 381-403): each pin is driven high exactly when
its channel value is strictly greater than 128 (binary on/off, no PWM). -/
def set_color (rgb0 rgb1 rgb2 : Nat) : RgbPins :=
  ⟨decide (rgb0 > 128), decide (rgb1 > 128), decide (rgb2 > 128)⟩

/-- RgbLeds::clear (lines 405-407): set_color([0, 0, 0]). -/
def rgbClear : RgbPins := set_color 0 0 0

theorem bitsAux_zero (fuel : Nat) : bitsAux fuel 0 = 0 := by
  cases fuel <;> simp [bitsAux]

theorem bitsAux_bounds :
    ∀ fuel n, n < 2 ^ fuel →
      n < 2 ^ bitsAux fuel n ∧ (n ≠ 0 → 2 ^ bitsAux fuel n ≤ 2 * n) := by
  intro fuel
  induction fuel with
  | zero =>
    intro n hn
    have : n = 0 := by simpa using Nat.lt_one_iff.mp hn
    subst this
    simp [bitsAux]
  | succ fuel ih =>
    intro n hn
    by_cases h0 : n = 0
    · subst h0; simp [bitsAux]
    · have hdiv : n / 2 < 2 ^ fuel := by
        have h2 : 2 ^ (fuel + 1) = 2 * 2 ^ fuel := by ring
        omega
      have ihd := ih (n / 2) hdiv
      rw [bitsAux, if_neg h0]
      have hpow : 2 ^ (bitsAux fuel (n / 2) + 1) = 2 * 2 ^ bitsAux fuel (n / 2) := by
        ring
      constructor
      · have := ihd.1
        omega
      · intro _
        by_cases hd0 : n / 2 = 0
        · have h1 : n = 1 := by omega
          rw [hd0, bitsAux_zero] at *
          subst h1
          simp
        · have := ihd.2 hd0
          omega

/-- Rounding to 24 significant bits leaves a value below 2 ^ 24 unchanged. -/
theorem roundSig24_small {n : Nat} (h : n < 2 ^ 24) : roundSig24 n = n := by
  rw [roundSig24, if_pos h]

/-- Error bound for rounding to 24 significant bits: there is a half-ulp b
with 2 ^ 24 * b ≤ n such that the rounded value lies within b of n. -/
theorem roundSig24_bounds (n : Nat) (h24 : 2 ^ 24 ≤ n) (h128 : n < 2 ^ 128) :
    ∃ b, 2 ^ 24 * b ≤ n ∧ roundSig24 n ≤ n + b ∧ n ≤ roundSig24 n + b := by
  have hb := bitsAux_bounds 128 n h128
  have hn0 : n ≠ 0 := by omega
  have hup : n < 2 ^ bits n := hb.1
  have hlow : 2 ^ bits n ≤ 2 * n := hb.2 hn0
  have hB : 25 ≤ bits n := by
    by_contra hc
    have h1 : bits n ≤ 24 := by omega
    have h2 : 2 ^ bits n ≤ 2 ^ 24 := Nat.pow_le_pow_right (by norm_num) h1
    omega
  refine ⟨2 ^ (bits n - 25), ?_, ?_, ?_⟩
  · have h1 : 2 ^ 24 * 2 ^ (bits n - 25) = 2 ^ (bits n - 1) := by
      rw [← pow_add]
      congr 1
      omega
    have h2 : 2 * 2 ^ (bits n - 1) = 2 ^ bits n := by
      rw [← pow_succ']
      congr 1
      omega
    omega
  all_goals {
    rw [roundSig24, if_neg (by omega)]
    have hqr := Nat.div_add_mod n (2 ^ (bits n - 24))
    have hrlt : n % 2 ^ (bits n - 24) < 2 ^ (bits n - 24) :=
      Nat.mod_lt _ (by positivity)
    have hE : 2 ^ (bits n - 24) = 2 * 2 ^ (bits n - 25) := by
      rw [← pow_succ']
      congr 1
      omega
    split
    case isTrue hcond =>
      simp only [Bool.or_eq_true, Bool.and_eq_true, decide_eq_true_eq,
        beq_iff_eq] at hcond
      have hge : 2 ^ (bits n - 25) ≤ n % 2 ^ (bits n - 24) := by
        rcases hcond with h | h
        · omega
        · omega
      have hgoal :
          (n / 2 ^ (bits n - 24) + 1) * 2 ^ (bits n - 24)
            = 2 ^ (bits n - 24) * (n / 2 ^ (bits n - 24)) + 2 ^ (bits n - 24) := by
        ring
      omega
    case isFalse hcond =>
      simp only [Bool.or_eq_true, Bool.and_eq_true, decide_eq_true_eq,
        beq_iff_eq, not_or, not_and, not_lt] at hcond
      have hgoal :
          n / 2 ^ (bits n - 24) * 2 ^ (bits n - 24)
            = 2 ^ (bits n - 24) * (n / 2 ^ (bits n - 24)) := by
        ring
      omega
  }

/-- Rounding to 24 significant bits at most doubles a value below 2 ^ 128. -/
theorem roundSig24_le_two (n : Nat) (h128 : n < 2 ^ 128) :
    roundSig24 n ≤ 2 * n := by
  by_cases h24 : n < 2 ^ 24
  · rw [roundSig24_small h24]; omega
  · obtain ⟨b, hb, hub, _⟩ := roundSig24_bounds n (by omega) h128
    have : b ≤ n := by
      have : 1 * b ≤ 2 ^ 24 * b := Nat.mul_le_mul_right b (by norm_num)
      omega
    omega

/-- Rounding to 24 significant bits loses at most a 2 ^ 24 fraction:
2 ^ 24 * n ≤ 2 ^ 24 * roundSig24 n + n. -/
theorem roundSig24_ge (n : Nat) (h128 : n < 2 ^ 128) :
    2 ^ 24 * n ≤ 2 ^ 24 * roundSig24 n + n := by
  by_cases h24 : n < 2 ^ 24
  · rw [roundSig24_small h24]; omega
  · obtain ⟨b, hb, _, hlb⟩ := roundSig24_bounds n (by omega) h128
    calc 2 ^ 24 * n ≤ 2 ^ 24 * (roundSig24 n + b) := Nat.mul_le_mul_left _ hlb
    _ = 2 ^ 24 * roundSig24 n + 2 ^ 24 * b := by ring
    _ ≤ 2 ^ 24 * roundSig24 n + n := by omega

example : distance_cm 23323 = 399 := by decide
example : distance_cm 23324 = 400 := by decide
example : distance_cm 0 = 0 := by decide
example : distance_cm 1000 = 17 := by decide

/-- On the unclamped range w < 23324 (where the exact distance is below 400),
the doubly rounded f32 computation agrees with exact truncation: the rounding
error is always smaller than the distance from the exact product to the next
integer, except at the exact multiples 0 and 20000 of the denominator, which
are checked individually. -/
theorem distance_cm_small :
    ∀ w, w < 23324 → distance_cm w = min 400 (w * 1715 / 100000) := by
  intro w hw
  by_cases hw0 : w = 0
  · subst hw0; decide
  by_cases hw1 : w = 1
  · subst hw1; decide
  by_cases hwK : w = 20000
  · subst hwK; decide
  have h2 : 2 ≤ w := by omega
  have hk := Nat.div_add_mod (343 * w) 20000
  have hrlt : 343 * w % 20000 < 20000 := Nat.mod_lt _ (by norm_num)
  have hr1 : 1 ≤ 343 * w % 20000 := by
    rcases Nat.eq_zero_or_pos (343 * w % 20000) with h0 | h0
    · exfalso
      have hdvd : 20000 ∣ 343 * w := Nat.dvd_of_mod_eq_zero h0
      have hcop : Nat.Coprime 20000 343 := by decide
      have hdw : 20000 ∣ w := hcop.dvd_of_dvd_mul_left hdvd
      omega
    · omega
  have hRw : roundSig24 w = w := roundSig24_small (by omega)
  have hn24 : 2 ^ 24 ≤ w * C_F32_NUM := by
    calc (2 ^ 24 : Nat) ≤ 2 * C_F32_NUM := by norm_num [C_F32_NUM]
    _ ≤ w * C_F32_NUM := Nat.mul_le_mul_right _ h2
  have hn128 : w * C_F32_NUM < 2 ^ 128 := by
    calc w * C_F32_NUM ≤ 23324 * C_F32_NUM := Nat.mul_le_mul_right _ (by omega)
    _ < 2 ^ 128 := by norm_num [C_F32_NUM]
  obtain ⟨b, hb, hub, hlb⟩ := roundSig24_bounds (w * C_F32_NUM) hn24 hn128
  have hnval : w * C_F32_NUM = 9207336 * w := by rw [C_F32_NUM]; ring
  rw [hnval] at hb hub hlb
  have hkey : 2 ^ 29 * (343 * w / 20000) ≤ roundSig24 (w * C_F32_NUM) ∧
      roundSig24 (w * C_F32_NUM) < 2 ^ 29 * (343 * w / 20000) + 2 ^ 29 := by
    rw [hnval]
    constructor <;> omega
  have hdiv : roundSig24 (w * C_F32_NUM) / 2 ^ 29 = 343 * w / 20000 := by
    rcases hkey with ⟨hk1, hk2⟩
    omega
  have hk399 : 343 * w / 20000 ≤ 399 := by omega
  have hrhs : w * 1715 / 100000 = 343 * w / 20000 := by omega
  rw [distance_cm, hRw, hdiv, hrhs]
  have h65535 : min (343 * w / 20000) 65535 = 343 * w / 20000 :=
    Nat.min_eq_left (by omega)
  rw [h65535]
  rw [Nat.min_eq_left (by omega), Nat.min_eq_right (by omega)]

/-- On the clamped range 23324 ≤ w < 2 ^ 64, even after both roundings lose a
2 ^ 24 relative fraction each, the computed f32 product stays at or above 400,
so the u16 truncation is at least 400 and .min(400) yields exactly 400. -/
theorem distance_cm_large (w : Nat) (hw : 23324 ≤ w) (h64 : w < 2 ^ 64) :
    distance_cm w = 400 := by
  have hw128 : w < 2 ^ 128 := by omega
  have haw : 2 ^ 24 * w ≤ 2 ^ 24 * roundSig24 w + w := roundSig24_ge w hw128
  have ha2 : roundSig24 w ≤ 2 * w := roundSig24_le_two w hw128
  have hn128 : roundSig24 w * C_F32_NUM < 2 ^ 128 := by
    calc roundSig24 w * C_F32_NUM ≤ (2 * w) * C_F32_NUM :=
          Nat.mul_le_mul_right _ ha2
    _ ≤ (2 * 2 ^ 64) * C_F32_NUM := by
        have : 2 * w ≤ 2 * 2 ^ 64 := by omega
        exact Nat.mul_le_mul_right _ this
    _ < 2 ^ 128 := by norm_num [C_F32_NUM]
  have hp : 2 ^ 24 * (roundSig24 w * C_F32_NUM) ≤
      2 ^ 24 * roundSig24 (roundSig24 w * C_F32_NUM) + roundSig24 w * C_F32_NUM :=
    roundSig24_ge _ hn128
  have h1 : (2 ^ 24 - 1) * (roundSig24 w * C_F32_NUM) ≤
      2 ^ 24 * roundSig24 (roundSig24 w * C_F32_NUM) := by omega
  have h2 : (2 ^ 24 - 1) * w ≤ 2 ^ 24 * roundSig24 w := by omega
  have key : 2 ^ 48 * (400 * 2 ^ 29) ≤
      2 ^ 48 * roundSig24 (roundSig24 w * C_F32_NUM) := by
    calc 2 ^ 48 * (400 * 2 ^ 29)
        ≤ (2 ^ 24 - 1) * ((2 ^ 24 - 1) * 23324) * C_F32_NUM := by
          norm_num [C_F32_NUM]
      _ ≤ (2 ^ 24 - 1) * ((2 ^ 24 - 1) * w) * C_F32_NUM := by
          have h3 : (2 ^ 24 - 1) * 23324 ≤ (2 ^ 24 - 1) * w :=
            Nat.mul_le_mul_left _ hw
          exact Nat.mul_le_mul_right _ (Nat.mul_le_mul_left _ h3)
      _ ≤ (2 ^ 24 - 1) * (2 ^ 24 * roundSig24 w) * C_F32_NUM :=
          Nat.mul_le_mul_right _ (Nat.mul_le_mul_left _ h2)
      _ = 2 ^ 24 * ((2 ^ 24 - 1) * (roundSig24 w * C_F32_NUM)) := by ring
      _ ≤ 2 ^ 24 * (2 ^ 24 * roundSig24 (roundSig24 w * C_F32_NUM)) :=
          Nat.mul_le_mul_left _ h1
      _ = 2 ^ 48 * roundSig24 (roundSig24 w * C_F32_NUM) := by ring
  have hp400 : 400 * 2 ^ 29 ≤ roundSig24 (roundSig24 w * C_F32_NUM) :=
    Nat.le_of_mul_le_mul_left key (by norm_num)
  rw [distance_cm]
  omega

/-- C3: for every echo pulse width w (a u64 count of microseconds), the value
returned by the conversion in read_distance equals min(400, floor(w * 0.01715)):
the doubly rounded f32 computation never moves the truncated result off the
exact value, and for w at or past the 400 cm threshold the result clamps to
exactly 400 with no overflow or wrap. -/
theorem c3_distance_conversion (w : Nat) (hw : w < 2 ^ 64) :
    distance_cm w = min 400 (w * 1715 / 100000) := by
  rcases Nat.lt_or_ge w 23324 with h | h
  · exact distance_cm_small w h
  · rw [distance_cm_large w h hw]
    have h1 : 40000000 ≤ w * 1715 := by
      calc (40000000 : Nat) ≤ 23324 * 1715 := by norm_num
      _ ≤ w * 1715 := Nat.mul_le_mul_right _ h
    omega

theorem c3_distance_conversion_witness :
    (23324 : Nat) < 2 ^ 64 ∧
      distance_cm 23324 = min 400 (23324 * 1715 / 100000) :=
  ⟨by norm_num, c3_distance_conversion 23324 (by norm_num)⟩

/-- C1: inside the shot window, the outcome is Perfect exactly when the first
qualifying ring reading happens at elapsed time strictly below 2000 ms, Good
exactly when it happens at elapsed time in [2000 ms, 3000 ms), and Miss
exactly when no qualifying reading occurs within the window; the three cases
are exhaustive and mutually exclusive, and the boundary is half-open: exactly
2000 ms elapsed yields Good, not Perfect. -/
theorem c1_outcome_partition (ticks : List Tick) :
    ((runWindow ticks).fst = ShotResult.Perfect ↔
      ∃ t, firstDetection ticks = some t ∧ t < 2000) ∧
    ((runWindow ticks).fst = ShotResult.Good ↔
      ∃ t, firstDetection ticks = some t ∧ 2000 ≤ t ∧ t < 3000) ∧
    ((runWindow ticks).fst = ShotResult.Miss ↔ firstDetection ticks = none) := by
  induction ticks with
  | nil => simp [runWindow, firstDetection]
  | cons tk rest ih =>
    by_cases h3 : tk.t < 3000
    · by_cases hd : tickDetects tk
      · by_cases h2 : tk.t < 2000
        · simp [runWindow, firstDetection, h3, hd, h2]
        · simp only [runWindow, firstDetection, if_pos h3, if_pos hd,
            if_neg h2]
          refine ⟨?_, ?_, ?_⟩
          · simp only [Option.some.injEq]
            constructor
            · intro hc; cases hc
            · rintro ⟨t, rfl, ht⟩; omega
          · simp only [Option.some.injEq]
            constructor
            · intro _; exact ⟨tk.t, rfl, by omega, h3⟩
            · intro _; trivial
          · simp
      · simpa [runWindow, firstDetection, h3, hd] using ih
    · simp [runWindow, firstDetection, h3]

theorem c1_outcome_partition_witness :
    (runWindow [⟨2000, some 50, none, none⟩]).fst = ShotResult.Good :=
  (c1_outcome_partition [⟨2000, some 50, none, none⟩]).2.1.mpr
    ⟨2000, by decide, by decide, by decide⟩

theorem runWindow_snd_eq (ticks : List Tick) :
    (runWindow ticks).snd = if isHit (runWindow ticks).fst then 1 else 0 := by
  induction ticks with
  | nil => simp [runWindow, isHit]
  | cons tk rest ih =>
    by_cases h3 : tk.t < 3000
    · by_cases hd : tickDetects tk
      · by_cases h2 : tk.t < 2000 <;>
          simp [runWindow, h3, hd, h2, isHit]
      · simpa [runWindow, h3, hd] using ih
    · simp [runWindow, h3, isHit]

theorem runActions_append (st : GameState) (as bs : List Action) :
    runActions st (as ++ bs) = runActions (runActions st as) bs :=
  List.foldl_append _ _ _ _

theorem runActions_windowActs (st : GameState) (ticks : List Tick) :
    runActions st (windowActs ticks) =
      { st with score := st.score + (runWindow ticks).snd } := by
  induction ticks generalizing st with
  | nil => simp [windowActs, runWindow, runActions]
  | cons tk rest ih =>
    by_cases h3 : tk.t < 3000
    · by_cases hd : tickDetects tk
      · by_cases h2 : tk.t < 2000 <;>
          simp [windowActs, runWindow, h3, hd, h2, runActions, applyAction]
      · simp only [windowActs, runWindow, if_pos h3, if_neg hd]
        rw [show runActions st (Action.sleepMs 50 :: windowActs rest) =
          runActions (applyAction st (Action.sleepMs 50)) (windowActs rest)
          from rfl]
        rw [show applyAction st (Action.sleepMs 50) = st from rfl]
        exact ih st
    · simp [windowActs, runWindow, h3, runActions]

theorem runActions_loopIter_hit (st : GameState) (d : Nat) (hd : d < 50)
    (ticks : List Tick) :
    runActions st (loopIter (some d) ticks) =
      ⟨st.score + (runWindow ticks).snd, ShotResult.Miss⟩ := by
  rw [loopIter]
  simp only [if_pos hd]
  rw [runActions_append, runActions_append, runActions_windowActs]
  rfl

theorem runActions_loopIter_none (st : GameState) (ticks : List Tick) :
    runActions st (loopIter none ticks) = st := by
  rfl

theorem gameRun_score (shots : List (List Tick)) :
    ∀ st : GameState,
      (gameRun st (shots.map fun s => ((some 30 : Option Nat), s))).score =
        st.score + List.countP (fun s => isHit (runWindow s).fst) shots := by
  induction shots with
  | nil => intro st; simp [gameRun]
  | cons s rest ih =>
    intro st
    simp only [List.map_cons, gameRun]
    rw [runActions_loopIter_hit st 30 (by norm_num) s, ih]
    rw [runWindow_snd_eq s, List.countP_cons]
    by_cases h : isHit (runWindow s).fst <;> simp [h] <;> omega

/-- C2: each shot attempt adds exactly 1 to SCORE when its outcome is Good or
Perfect and 0 when it is Miss, and over any sequence of attempts starting from
score 0 the final SCORE equals the number of non-Miss outcomes. -/
theorem c2_score_counts :
    (∀ ticks, (runWindow ticks).snd =
      if isHit (runWindow ticks).fst then 1 else 0) ∧
    ∀ shots : List (List Tick),
      (gameRun ⟨0, ShotResult.Miss⟩
          (shots.map fun s => ((some 30 : Option Nat), s))).score =
        List.countP (fun s => isHit (runWindow s).fst) shots := by
  refine ⟨runWindow_snd_eq, fun shots => ?_⟩
  rw [gameRun_score shots ⟨0, ShotResult.Miss⟩]
  simp

theorem c2_score_counts_witness :
    (gameRun ⟨0, ShotResult.Miss⟩
        (([[]] : List (List Tick)).map fun s => ((some 30 : Option Nat), s))).score =
      List.countP (fun s => isHit (runWindow s).fst) ([[]] : List (List Tick)) :=
  c2_score_counts.2 [[]]

theorem hcWaitLevel_none_iff (target : Bool) (echo : Nat → Bool) :
    ∀ fuel t, hcWaitLevel target echo t fuel = none ↔
      ∀ i, i ≤ fuel → echo (t + i) ≠ target := by
  intro fuel
  induction fuel with
  | zero =>
    intro t
    constructor
    · intro h i hi
      have h0 : i = 0 := Nat.le_zero.mp hi
      subst h0
      simp only [hcWaitLevel] at h
      by_cases he : echo t = target
      · rw [if_pos he] at h; cases h
      · simpa using he
    · intro h
      simp only [hcWaitLevel]
      rw [if_neg (by simpa using h 0 (Nat.le_refl 0))]
  | succ fuel ih =>
    intro t
    by_cases he : echo t = target
    · constructor
      · intro h
        simp only [hcWaitLevel, if_pos he] at h
        exact Option.noConfusion h
      · intro h
        exact absurd he (by simpa using h 0 (by omega))
    · simp only [hcWaitLevel, if_neg he]
      rw [ih (t + 1)]
      constructor
      · intro h i hi
        cases i with
        | zero => simpa using he
        | succ j =>
          have hj := h j (by omega)
          have heq : t + 1 + j = t + (j + 1) := by omega
          rwa [heq] at hj
      · intro h i hi
        have hj := h (i + 1) (by omega)
        have heq : t + (i + 1) = t + 1 + i := by omega
        rwa [heq] at hj

theorem hcWaitLevel_some (target : Bool) (echo : Nat → Bool) :
    ∀ fuel t th, hcWaitLevel target echo t fuel = some th →
      echo th = target ∧ t ≤ th ∧ th ≤ t + fuel := by
  intro fuel
  induction fuel with
  | zero =>
    intro t th h
    simp only [hcWaitLevel] at h
    by_cases he : echo t = target
    · rw [if_pos he] at h
      cases h
      exact ⟨he, Nat.le_refl t, by omega⟩
    · rw [if_neg he] at h; cases h
  | succ fuel ih =>
    intro t th h
    simp only [hcWaitLevel] at h
    by_cases he : echo t = target
    · rw [if_pos he] at h
      cases h
      exact ⟨he, Nat.le_refl t, by omega⟩
    · rw [if_neg he] at h
      obtain ⟨h1, h2, h3⟩ := ih (t + 1) th h
      exact ⟨h1, by omega, by omega⟩

/-- C4: read_distance returns Err (modelled none) exactly when either the echo
line is never sampled high during the whole echo-start poll budget (one sample
per microsecond until elapsed exceeds 30 ms), or it is sampled high at some
instant th and never sampled low during the whole echo-end budget measured
from th; the polling loops are total functions of their bounded fuel, so a
call never blocks indefinitely. -/
theorem c4_timeout_iff (echo : Nat → Bool) (t0 : Nat) :
    hcsr04_read_distance echo t0 = none ↔
      ((∀ i, i ≤ 30001 → echo (t0 + i) = false) ∨
       ∃ th, hcWaitLevel true echo t0 30001 = some th ∧
         ∀ i, i ≤ 30001 → echo (th + i) = true) := by
  cases h1 : hcWaitLevel true echo t0 30001 with
  | none =>
    have hred : hcsr04_read_distance echo t0 = none := by
      unfold hcsr04_read_distance
      simp only [h1]
    rw [hred]
    exact iff_of_true rfl (Or.inl fun i hi => by
      simpa using (hcWaitLevel_none_iff true echo 30001 t0).mp h1 i hi)
  | some th =>
    cases h2 : hcWaitLevel false echo th 30001 with
    | none =>
      have hred : hcsr04_read_distance echo t0 = none := by
        unfold hcsr04_read_distance
        simp only [h1, h2]
      rw [hred]
      exact iff_of_true rfl (Or.inr ⟨th, rfl, fun i hi => by
        simpa using (hcWaitLevel_none_iff false echo 30001 th).mp h2 i hi⟩)
    | some tl =>
      have hred : hcsr04_read_distance echo t0 = some (distance_cm (tl - th)) := by
        unfold hcsr04_read_distance
        simp only [h1, h2]
      rw [hred]
      apply iff_of_false (by simp)
      rintro (hall | ⟨th2, hth2, hall⟩)
      · obtain ⟨he, hle, hub⟩ := hcWaitLevel_some true echo 30001 t0 th h1
        have hi := hall (th - t0) (by omega)
        rw [show t0 + (th - t0) = th by omega] at hi
        rw [he] at hi
        cases hi
      · injection hth2 with hth2
        subst hth2
        obtain ⟨he, hle, hub⟩ := hcWaitLevel_some false echo 30001 th tl h2
        have hi := hall (tl - th) (by omega)
        rw [show th + (tl - th) = tl by omega] at hi
        rw [he] at hi
        cases hi

theorem c4_timeout_iff_witness :
    hcsr04_read_distance (fun _ => false) 0 = none :=
  (c4_timeout_iff (fun _ => false) 0).mpr (Or.inl fun _ _ => rfl)

/-- C5: a ring Timeout is folded into a 400 cm reading, which is a
non-detection; an approach Timeout leaves the machine idling: the iteration
trace is just the 100 ms poll delay, and a run all of whose approach reads
time out leaves the shared state untouched, for any number of iterations. -/
theorem c5_timeout_never_escalates :
    ringDist none = 400 ∧
    (∀ t r2 r3,
      tickDetects ⟨t, none, r2, r3⟩ = tickDetects ⟨t, some 400, r2, r3⟩) ∧
    (∀ ticks, loopIter none ticks = [Action.sleepMs 100]) ∧
    ∀ (st : GameState) (iters : List (Option Nat × List Tick)),
      (∀ p ∈ iters, p.fst = (none : Option Nat)) → gameRun st iters = st := by
  refine ⟨rfl, fun t r2 r3 => rfl, fun ticks => rfl, ?_⟩
  intro st iters
  induction iters generalizing st with
  | nil => intro _; rfl
  | cons p rest ih =>
    intro h
    obtain ⟨a, tks⟩ := p
    have ha : a = none := h (a, tks) (List.mem_cons_self _ _)
    subst ha
    simp only [gameRun]
    rw [runActions_loopIter_none]
    exact ih st fun q hq => h q (List.mem_cons_of_mem _ hq)

theorem c5_timeout_never_escalates_witness :
    gameRun ⟨0, ShotResult.Miss⟩ [((none : Option Nat), [])] =
      ⟨0, ShotResult.Miss⟩ :=
  c5_timeout_never_escalates.2.2.2 ⟨0, ShotResult.Miss⟩ [(none, [])]
    (by simp)

/-- C6: a shot window never increments the score more than once, and on a
polling tick where several ring sensors qualify at once (here ring1 and
ring3) the increment is still exactly one and the outcome is classified once,
from the elapsed time alone. -/
theorem c6_single_increment :
    (∀ ticks, (runWindow ticks).snd ≤ 1) ∧
    ∀ t d1 d2 d3 rest, t < 3000 → d1 < 60 → d3 < 60 →
      runWindow (⟨t, some d1, some d2, some d3⟩ :: rest) =
        (if t < 2000 then (ShotResult.Perfect, 1) else (ShotResult.Good, 1)) := by
  constructor
  · intro ticks
    induction ticks with
    | nil => simp [runWindow]
    | cons tk rest ih =>
      by_cases h3 : tk.t < 3000
      · by_cases hd : tickDetects tk
        · by_cases h2 : tk.t < 2000 <;> simp [runWindow, h3, hd, h2]
        · simpa [runWindow, h3, hd] using ih
      · simp [runWindow, h3]
  · intro t d1 d2 d3 rest h3 hd1 hd3
    have hdet : tickDetects ⟨t, some d1, some d2, some d3⟩ = true := by
      simp only [tickDetects, ringDist, Option.getD_some, Bool.or_eq_true,
        decide_eq_true_eq]
      omega
    simp [runWindow, h3, hdet]

theorem c6_single_increment_witness :
    runWindow [⟨1900, some 50, some 400, some 45⟩] = (ShotResult.Perfect, 1) := by
  have h := c6_single_increment.2 1900 50 400 45 [] (by norm_num) (by norm_num)
    (by norm_num)
  simpa using h

/-- C7: after a triggering approach read, the iteration trace is exactly the
window actions followed by publish(outcome), 2 s dwell, publish(Miss), 1 s
cooldown and the 100 ms loop delay; the window part contains only addScore and
sleeps (no publish), so the outcome is published exactly once per attempt; and
gameRun runs each iteration to completion before the next begins, so no two
shot attempts overlap. -/
theorem c7_post_classification_sequence :
    (∀ d ticks, d < 50 →
      loopIter (some d) ticks =
        windowActs ticks ++
          [Action.setResult (runWindow ticks).fst, Action.sleepMs 2000,
           Action.setResult ShotResult.Miss, Action.sleepMs 1000,
           Action.sleepMs 100]) ∧
    (∀ ticks a, a ∈ windowActs ticks →
      a = Action.addScore ∨ ∃ m, a = Action.sleepMs m) ∧
    ∀ (st : GameState) (a : Option Nat) (tks : List Tick)
      (rest : List (Option Nat × List Tick)),
      gameRun st ((a, tks) :: rest) =
        gameRun (runActions st (loopIter a tks)) rest := by
  refine ⟨?_, ?_, fun st a tks rest => rfl⟩
  · intro d ticks hd
    simp [loopIter, hd]
  · intro ticks
    induction ticks with
    | nil => intro a h; simp [windowActs] at h
    | cons tk rest ih =>
      intro a h
      by_cases h3 : tk.t < 3000
      · by_cases hdet : tickDetects tk
        · simp only [windowActs, if_pos h3, if_pos hdet,
            List.mem_singleton] at h
          exact Or.inl h
        · simp only [windowActs, if_pos h3, if_neg hdet, List.mem_cons] at h
          rcases h with h | h
          · exact Or.inr ⟨50, h⟩
          · exact ih a h
      · simp [windowActs, h3] at h

theorem c7_post_classification_sequence_witness :
    loopIter (some 30) [] =
      [Action.setResult ShotResult.Miss, Action.sleepMs 2000,
       Action.setResult ShotResult.Miss, Action.sleepMs 1000,
       Action.sleepMs 100] := by
  have h := c7_post_classification_sequence.1 30 [] (by norm_num)
  simpa [windowActs, runWindow] using h

/-- C8: SCORE is monotonically non-decreasing along every action sequence; a
single action changes it by zero or exactly one, only addScore (the shot state
machine's increment, performed under the SCORE mutex) changes it, and addScore
adds exactly one. In the embedding only game_logic_task traces contain
addScore; the presentation tasks only read the shared state. -/
theorem c8_score_monotone :
    (∀ (st : GameState) (acts : List Action),
      st.score ≤ (runActions st acts).score) ∧
    (∀ (st : GameState) (a : Action),
      (applyAction st a).score = st.score ∨
        (applyAction st a).score = st.score + 1) ∧
    (∀ (st : GameState) (a : Action),
      a ≠ Action.addScore → (applyAction st a).score = st.score) ∧
    ∀ st : GameState, (applyAction st Action.addScore).score = st.score + 1 := by
  refine ⟨?_, ?_, ?_, fun st => rfl⟩
  · intro st acts
    induction acts generalizing st with
    | nil => exact Nat.le_refl _
    | cons a rest ih =>
      have h1 : st.score ≤ (applyAction st a).score := by
        cases a <;> simp [applyAction]
      calc st.score ≤ (applyAction st a).score := h1
      _ ≤ (runActions (applyAction st a) rest).score := ih _
      _ = (runActions st (a :: rest)).score := rfl
  · intro st a
    cases a with
    | setResult r => exact Or.inl rfl
    | sleepMs m => exact Or.inl rfl
    | addScore => exact Or.inr rfl
  · intro st a h
    cases a with
    | setResult r => rfl
    | sleepMs m => rfl
    | addScore => exact absurd rfl h

theorem c8_score_monotone_witness :
    Action.sleepMs 100 ≠ Action.addScore ∧
      (applyAction ⟨0, ShotResult.Miss⟩ (Action.sleepMs 100)).score =
        (⟨0, ShotResult.Miss⟩ : GameState).score :=
  ⟨by decide,
    c8_score_monotone.2.2.1 ⟨0, ShotResult.Miss⟩ (Action.sleepMs 100)
      (by decide)⟩

theorem ioeWaitLevel_eq (target : Bool) (echo : Nat → Bool) :
    ∀ fuel t, ioeWaitLevel target echo t fuel = hcWaitLevel target echo t fuel := by
  intro fuel
  induction fuel with
  | zero => intro t; rfl
  | succ fuel ih =>
    intro t
    simp only [ioeWaitLevel, hcWaitLevel]
    rw [ih]

/-- C9: the approach-sensor driver and the ring-sensor driver run the same
trigger/echo protocol: on identical echo-line observations from the same
start instant, IoeSr05Sensor::read_distance returns exactly what
HcSr04Sensor::read_distance returns, whatever the sensor_id used for
diagnostics. -/
theorem c9_drivers_equivalent (sensor_id : Nat) (echo : Nat → Bool)
    (t0 : Nat) :
    ioesr05_read_distance sensor_id echo t0 = hcsr04_read_distance echo t0 := by
  simp only [ioesr05_read_distance, hcsr04_read_distance, ioeWaitLevel_eq]

theorem c9_drivers_equivalent_witness :
    ioesr05_read_distance 1 (fun _ => false) 0 =
      hcsr04_read_distance (fun _ => false) 0 :=
  c9_drivers_equivalent 1 (fun _ => false) 0

/-- C10: a channel pin is driven high iff its value is strictly greater than
128; hence the startup color [128, 0, 128] drives no pin high, and clear
drives all three pins low. -/
theorem c10_led_threshold :
    (∀ r g b, ((set_color r g b).red_pin = true ↔ 128 < r) ∧
      ((set_color r g b).green_pin = true ↔ 128 < g) ∧
      ((set_color r g b).blue_pin = true ↔ 128 < b)) ∧
    set_color 128 0 128 = ⟨false, false, false⟩ ∧
    rgbClear = ⟨false, false, false⟩ := by
  refine ⟨fun r g b => ⟨?_, ?_, ?_⟩, by decide, by decide⟩ <;>
    simp [set_color]

theorem c10_led_threshold_witness :
    (set_color 255 0 0).red_pin = true :=
  (c10_led_threshold.1 255 0 0).1.mpr (by norm_num)

end Hoop
